import Mathlib

/-!
Verification of the zellij-mcp command runner and focus coordinator
(`src/lib/zellij.ts`), shallowly embedded in Lean.

The embedding models:
* `exec` — the `execFile` wrapper: timeout rejection, output trimming and
  exit-code normalization, as a function of the callback data
  `(error, stdout, stderr)` the child process produced;
* `zellij` / `zellijAction` / `zellijActionOrThrow` / `zellijRaw` /
  `zellijRawOrThrow` — argument assembly (session injection), the checked
  error path and the post-action settling delay;
* the regex parse in `getFocusedTabName`
  (`/tab\s+name="([^"]+)"[^{]*\bfocus=true/`) as an explicit backtracking-free
  scanner over the character list;
* `withFocusPreservation` — the snapshot/act/restore protocol.

Asynchronous effects are modelled by the pair of (a) the ordered trace of
subprocess spawns and settling delays an operation performs and (b) its
resolution or rejection (`Except`).  The process environment is an oracle
mapping each final argument list to the callback outcome of the spawned
child, plus the optional `ZELLIJ_MCP_SESSION` variable.
-/

/-- JavaScript whitespace (the class matched by `\s`, also used by
`String.prototype.trimEnd`). -/
def jsSpace (c : Char) : Bool :=
  c = ' ' || c = '\t' || c = '\n' || c.val = 0x000B || c.val = 0x000C || c = '\r' ||
  c.val = 0x00A0 || c.val = 0x1680 || (0x2000 ≤ c.val && c.val ≤ 0x200A) ||
  c.val = 0x2028 || c.val = 0x2029 || c.val = 0x202F || c.val = 0x205F ||
  c.val = 0x3000 || c.val = 0xFEFF

/-- JavaScript `String.prototype.trimEnd` — remove trailing whitespace only. -/
def trimEnd (s : String) : String :=
  String.mk ((s.data.reverse.dropWhile jsSpace).reverse)

/-- The `code` property of a Node `execFile` error, when non-null: a number,
or some other non-null value (such as the string `"ENOENT"`). -/
inductive ErrCode
  | num (n : Int)
  | other (s : String)
deriving DecidableEq

/-- The `error` argument passed to the `execFile` callback, when non-null:
its `killed` flag and its optional `code` property (`none` models a
null/undefined code). -/
structure ExecErr where
  killed : Bool
  code : Option ErrCode
deriving DecidableEq

/-- One `execFile` callback outcome: `(error, stdout, stderr)`. -/
structure CbData where
  error : Option ExecErr
  stdout : String
  stderr : String
deriving DecidableEq

/-- `ZellijResult` from the source: trimmed output texts and the normalized
exit code. -/
structure ZellijResult where
  stdout : String
  stderr : String
  exitCode : Int
deriving DecidableEq

/-- `args.join(" ")`. -/
def joinSpace (args : List String) : String := String.intercalate " " args

/-- The timeout rejection message built in `exec`. -/
def timeoutMsg (timeout : Nat) (args : List String) : String :=
  "zellij command timed out after " ++ toString timeout ++ "ms: zellij " ++
    joinSpace args

/-- Exit-code normalization from `exec`:
`typeof code === "number" ? code : code != null ? 1 : 0`. -/
def normalizeExit (error : Option ExecErr) : Int :=
  match error with
  | none => 0
  | some e =>
    match e.code with
    | some (ErrCode.num n) => n
    | some (ErrCode.other _) => 1
    | none => 0

/-- `exec(args, timeout)` applied to the callback data the child process
produced.  A rejection of the promise is `.error`, a resolution `.ok`. -/
def exec (args : List String) (timeout : Nat) (cb : CbData) :
    Except String ZellijResult :=
  match cb.error with
  | some e =>
    if e.killed then Except.error (timeoutMsg timeout args)
    else Except.ok ⟨trimEnd cb.stdout, trimEnd cb.stderr, normalizeExit (some e)⟩
  | none => Except.ok ⟨trimEnd cb.stdout, trimEnd cb.stderr, 0⟩

/-- `ZellijOptions`: every field optional, as in the source.  A missing
options object is the record with all fields `none`. -/
structure ZellijOptions where
  session : Option String := none
  timeout : Option Nat := none
  raw : Option Bool := none

def DEFAULT_SESSION : String := "zellij-mcp"

def DEFAULT_TIMEOUT_MS : Nat := 10000

def POST_ACTION_DELAY_MS : Nat := 60

/-- `getSession`: `options?.session ?? process.env.ZELLIJ_MCP_SESSION ??
DEFAULT_SESSION`. -/
def getSession (options : ZellijOptions) (envSession : Option String) : String :=
  match options.session with
  | some s => s
  | none =>
    match envSession with
    | some s => s
    | none => DEFAULT_SESSION

/-- One observable event of an asynchronous operation: spawning the zellij
binary with a final argument list, or sleeping for a settling delay. -/
inductive Ev
  | spawn (args : List String)
  | sleep (ms : Nat)
deriving DecidableEq

/-- The outcome of an asynchronous operation: the ordered trace of events it
performed, and its resolution or rejection. -/
def M (α : Type) : Type := List Ev × Except String α

/-- The argument lists of the subprocess invocations in a trace, in order. -/
def spawnCalls (t : List Ev) : List (List String) :=
  t.filterMap fun e => match e with | Ev.spawn a => some a | Ev.sleep _ => none

/-- The process environment: the callback outcome the zellij binary produces
for each final argument list, and `process.env.ZELLIJ_MCP_SESSION`. -/
structure Env where
  run : List String → CbData
  session : Option String

/-- The final argument list `zellij` passes to `execFile`: the caller's
arguments, with `--session <name>` prepended unless raw mode is requested. -/
def finalArgsOf (env : Env) (args : List String) (options : ZellijOptions) :
    List String :=
  if options.raw.getD false then args
  else "--session" :: getSession options env.session :: args

/-- `zellij(args, options)`. -/
def zellij (env : Env) (args : List String) (options : ZellijOptions) :
    M ZellijResult :=
  let timeout := options.timeout.getD DEFAULT_TIMEOUT_MS
  let finalArgs := finalArgsOf env args options
  ([Ev.spawn finalArgs], exec finalArgs timeout (env.run finalArgs))

/-- `zellijAction(args, options)` — prepends `"action"`. -/
def zellijAction (env : Env) (args : List String) (options : ZellijOptions) :
    M ZellijResult :=
  zellij env ("action" :: args) options

/-- `result.stderr || result.stdout || "unknown error"`. -/
def detailOf (r : ZellijResult) : String :=
  if r.stderr ≠ "" then r.stderr
  else if r.stdout ≠ "" then r.stdout
  else "unknown error"

/-- The rejection message of `zellijActionOrThrow`:
`zellij action ${args[0]} failed (exit ${result.exitCode}): ${detail}`.
JavaScript renders `args[0]` of an empty list as `undefined`. -/
def actionFailMsg (args : List String) (r : ZellijResult) : String :=
  "zellij action " ++ args.headD "undefined" ++ " failed (exit " ++
    toString r.exitCode ++ "): " ++ detailOf r

/-- `zellijActionOrThrow(args, options)`: throws on non-zero exit, sleeps
`POST_ACTION_DELAY_MS` then returns `result.stdout` on success. -/
def zellijActionOrThrow (env : Env) (args : List String)
    (options : ZellijOptions) : M String :=
  match zellijAction env args options with
  | (t, Except.error e) => (t, Except.error e)
  | (t, Except.ok result) =>
    if result.exitCode ≠ 0 then (t, Except.error (actionFailMsg args result))
    else (t ++ [Ev.sleep POST_ACTION_DELAY_MS], Except.ok result.stdout)

/-- `zellijRaw(args, options)` — `zellij(args, {...options, raw: true})`. -/
def zellijRaw (env : Env) (args : List String) (options : ZellijOptions) :
    M ZellijResult :=
  zellij env args { options with raw := some true }

/-- The rejection message of `zellijRawOrThrow`. -/
def rawFailMsg (args : List String) (r : ZellijResult) : String :=
  "zellij " ++ args.headD "undefined" ++ " failed (exit " ++
    toString r.exitCode ++ "): " ++ detailOf r

/-- `zellijRawOrThrow(args, options)` — no settling delay on this path. -/
def zellijRawOrThrow (env : Env) (args : List String)
    (options : ZellijOptions) : M String :=
  match zellijRaw env args options with
  | (t, Except.error e) => (t, Except.error e)
  | (t, Except.ok result) =>
    if result.exitCode ≠ 0 then (t, Except.error (rawFailMsg args result))
    else (t, Except.ok result.stdout)

/-! ### The layout-dump regex

`/tab\s+name="([^"]+)"[^{]*\bfocus=true/` with `String.prototype.match`
returns the leftmost match; every quantifier in this pattern admits exactly
one parse at a given start position, so the scanner below is an exact model:
`[^"]+` must stop at the first `"`, `\s+` must consume the whole whitespace
run (the following literal starts with a non-whitespace character), and for
`[^{]*\bfocus=true` only existence of an occurrence of `focus=true`, at a
word boundary and not beyond the next `{`, matters. -/

def tabLit : List Char := ['t', 'a', 'b']

def nameLit : List Char := ['n', 'a', 'm', 'e', '=', '"']

def focusLit : List Char := ['f', 'o', 'c', 'u', 's', '=', 't', 'r', 'u', 'e']

/-- JavaScript `\w` (the word class used by the `\b` assertion). -/
def jsWordChar (c : Char) : Bool := c.isAlpha || c.isDigit || c = '_'

/-- Match a literal at the head of the input, returning the remainder. -/
def dropLit : List Char → List Char → Option (List Char)
  | [], s => some s
  | _ :: _, [] => none
  | p :: ps, c :: cs => if c = p then dropLit ps cs else none

/-- `\s+` — at least one whitespace character, maximal run. -/
def dropWs1 : List Char → Option (List Char)
  | [] => none
  | c :: cs => if jsSpace c then some (cs.dropWhile jsSpace) else none

def notQuote (c : Char) : Bool := !(c = '"')

/-- `([^"]+)"` — capture the (necessarily maximal) non-empty run of
non-quote characters, then consume the closing quote. -/
def splitName (s : List Char) : Option (List Char × List Char) :=
  if s.takeWhile notQuote ≠ [] ∧ (s.dropWhile notQuote).head? = some '"'
  then some (s.takeWhile notQuote, (s.dropWhile notQuote).tail)
  else none

/-- `[^{]*\bfocus=true` — scan for `focus=true` at a word boundary, giving
up at the first `{`.  The first argument is the character preceding the
current position (for the `\b` assertion). -/
def focusSearch : Char → List Char → Bool
  | prev, c :: cs =>
    if focusLit.isPrefixOf (c :: cs) && !jsWordChar prev then true
    else if c = '{' then false
    else focusSearch c cs
  | _, [] => false

/-- One attempt of the full pattern anchored at the start of the input,
returning the capture group.  The character before `focusSearch` starts is
the closing quote of the name. -/
def tryMatchAt (s : List Char) : Option (List Char) :=
  (dropLit tabLit s).bind fun s1 =>
    (dropWs1 s1).bind fun s2 =>
      (dropLit nameLit s2).bind fun s3 =>
        (splitName s3).bind fun p =>
          if focusSearch '"' p.2 then some p.1 else none

/-- Leftmost match of the pattern — group 1 of `layout.match(re)`. -/
def scanFocus : List Char → Option (List Char)
  | [] => none
  | c :: cs =>
    match tryMatchAt (c :: cs) with
    | some n => some n
    | none => scanFocus cs

/-- The pure parsing core of `getFocusedTabName`:
`layout.match(/tab\s+name="([^"]+)"[^{]*\bfocus=true/)?.[1] ?? null`. -/
def parseFocusedTabName (layout : String) : Option String :=
  (scanFocus layout.data).map String.mk

/-- `getFocusedTabName(options)`: dump the layout via the checked action
path, then parse it. -/
def getFocusedTabName (env : Env) (options : ZellijOptions) :
    M (Option String) :=
  match zellijActionOrThrow env ["dump-layout"] options with
  | (t, Except.error e) => (t, Except.error e)
  | (t, Except.ok layout) => (t, Except.ok (parseFocusedTabName layout))

/-- `withFocusPreservation(action, preserve, options)`.  The action is
modelled by the trace it performs and its outcome.  `if (focusedTab)` is
JavaScript truthiness: both `null` and the empty string skip restoration. -/
def withFocusPreservation {α : Type} (action : M α) (preserve : Bool)
    (env : Env) (options : ZellijOptions) : M α :=
  if preserve then
    match getFocusedTabName env options with
    | (t, Except.error e) => (t, Except.error e)
    | (t, Except.ok focusedTab) =>
      match action with
      | (ta, Except.error e) => (t ++ ta, Except.error e)
      | (ta, Except.ok v) =>
        match focusedTab with
        | some nm =>
          if nm = "" then (t ++ ta, Except.ok v)
          else
            match zellijActionOrThrow env ["go-to-tab-name", nm] options with
            | (tr, Except.error e) => (t ++ ta ++ tr, Except.error e)
            | (tr, Except.ok _) => (t ++ ta ++ tr, Except.ok v)
        | none => (t ++ ta, Except.ok v)
  else action

/-! ### General helpers -/

theorem string_data_append (s t : String) : (s ++ t).data = s.data ++ t.data :=
  String.data_append s t

/-- The substring-containment relation used to state the "message contains"
claims: the characters of `sub` occur contiguously in `s`. -/
def strIncl (sub s : String) : Prop := sub.data <:+: s.data

theorem strIncl_mid (a b c : String) : strIncl b (a ++ b ++ c) := by
  unfold strIncl
  simp only [string_data_append]
  exact ⟨a.data, c.data, by simp⟩

/-- Splitting a prefix of an append: either the pattern lies inside the left
part, or it covers all of the left part and continues into the right part. -/
theorem pre_append_cases {α : Type} {p x y : List α} (h : p <+: x ++ y) :
    p <+: x ∨ (x <+: p ∧ p.drop x.length <+: y) := by
  rcases le_or_lt p.length x.length with hle | hlt
  · left
    have hp := List.prefix_iff_eq_take.mp h
    rw [List.take_append_eq_append_take, Nat.sub_eq_zero_of_le hle] at hp
    simp only [List.take_nil, List.take_zero, List.append_nil] at hp
    exact List.prefix_iff_eq_take.mpr hp
  · right
    have hp := List.prefix_iff_eq_take.mp h
    rw [List.take_append_eq_append_take, List.take_of_length_le (Nat.le_of_lt hlt)] at hp
    constructor
    · exact ⟨y.take (p.length - x.length), hp.symm⟩
    · rw [hp, List.drop_left]
      exact List.take_prefix _ y

/-- Infix occurrences are prefixes of suffixes obtained by `drop`. -/
theorem inf_iff_drop {α : Type} {p l : List α} :
    p <:+: l ↔ ∃ i, p <+: l.drop i := by
  constructor
  · rintro ⟨s, t, rfl⟩
    refine ⟨s.length, ?_⟩
    rw [List.append_assoc, List.drop_left]
    exact ⟨t, rfl⟩
  · rintro ⟨i, t, ht⟩
    exact ⟨l.take i, t, by rw [List.append_assoc, ht, List.take_append_drop]⟩

/-! ### C5 / C6: output trimming and exit-code normalization -/

/-- C5 counterexample: on a child that exits 0 with stdout `"  out\n"` and
stderr `"  err\n"`, `execute` does NOT resolve with
`{stdout: "out", stderr: "err", exitCode: 0}` — leading whitespace is kept. -/
theorem exec_trim_counterexample :
    (exec ["run"] 10000 ⟨none, "  out\n", "  err\n"⟩).toOption ≠
      some ⟨"out", "err", 0⟩ := by decide

/-- C5 (amended): `execute` trims only trailing whitespace from the captured
outputs; on the claimed input it resolves with stdout `"  out"` and stderr
`"  err"`, keeping the leading runs. -/
theorem exec_trims_trailing_only :
    exec ["run"] 10000 ⟨none, "  out\n", "  err\n"⟩ =
      Except.ok ⟨"  out", "  err", 0⟩ := rfl

/-- C6 counterexample: a failure whose reported `code` is null/undefined
(e.g. a child terminated by an external signal) normalizes to exit code 0,
not 1 as the claim states for every non-numeric failure code. -/
theorem exit_code_counterexample :
    (exec ["x"] 10000 ⟨some ⟨false, none⟩, "", ""⟩).toOption ≠
      some ⟨"", "", 1⟩ := by decide

/-- C6 (amended): `execute` normalizes the exit code to 0 on success, to the
child's numeric code when one is reported, to 1 when a failure reports a
non-null non-numeric code, and to 0 when a (non-timeout) failure reports no
code at all. -/
theorem exec_exit_code_normalization (args : List String) (timeout : Nat)
    (cb : CbData) :
    (cb.error = none →
      exec args timeout cb = Except.ok ⟨trimEnd cb.stdout, trimEnd cb.stderr, 0⟩) ∧
    (∀ n : Int, cb.error = some ⟨false, some (ErrCode.num n)⟩ →
      exec args timeout cb = Except.ok ⟨trimEnd cb.stdout, trimEnd cb.stderr, n⟩) ∧
    (∀ s : String, cb.error = some ⟨false, some (ErrCode.other s)⟩ →
      exec args timeout cb = Except.ok ⟨trimEnd cb.stdout, trimEnd cb.stderr, 1⟩) ∧
    (cb.error = some ⟨false, none⟩ →
      exec args timeout cb = Except.ok ⟨trimEnd cb.stdout, trimEnd cb.stderr, 0⟩) := by
  refine ⟨fun h => ?_, fun n h => ?_, fun s h => ?_, fun h => ?_⟩ <;>
    simp [exec, h, normalizeExit]

theorem exec_exit_code_normalization_witness :
    exec ["x"] 5 ⟨some ⟨false, some (ErrCode.num 42)⟩, "", ""⟩ =
      Except.ok ⟨"", "", 42⟩ ∧
    exec ["x"] 5 ⟨some ⟨false, some (ErrCode.other "ENOENT")⟩, "", ""⟩ =
      Except.ok ⟨"", "", 1⟩ ∧
    exec ["x"] 5 ⟨some ⟨false, none⟩, "", ""⟩ = Except.ok ⟨"", "", 0⟩ :=
  ⟨(exec_exit_code_normalization ["x"] 5 _).2.1 42 rfl,
   (exec_exit_code_normalization ["x"] 5 _).2.2.1 "ENOENT" rfl,
   (exec_exit_code_normalization ["x"] 5 _).2.2.2 rfl⟩

/-! ### C7: timeout rejection -/

/-- C7: when the child was killed for exceeding its timeout, `execute`
rejects with a message containing the configured timeout value and the
attempted argument list; a failure that was not a timeout kill resolves to
an ordinary result instead. -/
theorem exec_timeout_rejects (args : List String) (timeout : Nat)
    (cb : CbData) (e : ExecErr) (h : cb.error = some e) :
    (e.killed = true →
      exec args timeout cb = Except.error (timeoutMsg timeout args) ∧
      strIncl (toString timeout) (timeoutMsg timeout args) ∧
      strIncl (joinSpace args) (timeoutMsg timeout args)) ∧
    (e.killed = false → ∃ r, exec args timeout cb = Except.ok r) := by
  constructor
  · intro hk
    refine ⟨by simp [exec, h, hk], ?_, ?_⟩
    · have := strIncl_mid "zellij command timed out after " (toString timeout)
        ("ms: zellij " ++ joinSpace args)
      simpa [timeoutMsg, strIncl, string_data_append, List.append_assoc] using this
    · have := strIncl_mid
        ("zellij command timed out after " ++ toString timeout ++ "ms: zellij ")
        (joinSpace args) ""
      simpa [timeoutMsg, strIncl, string_data_append, List.append_assoc] using this
  · intro hk
    exact ⟨⟨trimEnd cb.stdout, trimEnd cb.stderr, normalizeExit (some e)⟩,
      by simp [exec, h, hk]⟩

theorem exec_timeout_rejects_witness :
    exec ["a", "b"] 5 ⟨some ⟨true, none⟩, "", ""⟩ =
      Except.error (timeoutMsg 5 ["a", "b"]) ∧
    strIncl (toString 5) (timeoutMsg 5 ["a", "b"]) ∧
    strIncl (joinSpace ["a", "b"]) (timeoutMsg 5 ["a", "b"]) :=
  (exec_timeout_rejects ["a", "b"] 5 ⟨some ⟨true, none⟩, "", ""⟩ ⟨true, none⟩
    rfl).1 rfl

/-! ### C8 / C9: session injection -/

/-- C8: a non-raw call spawns exactly `["--session", S, ...args]`, where the
session `S` resolves with precedence per-call override, then environment
variable, then the fixed default. -/
theorem zellij_session_injection (env : Env) (args : List String)
    (options : ZellijOptions) (h : options.raw.getD false = false) :
    (zellij env args options).1 =
      [Ev.spawn ("--session" :: getSession options env.session :: args)] ∧
    (∀ s, options.session = some s → getSession options env.session = s) ∧
    (options.session = none → ∀ s, env.session = some s →
      getSession options env.session = s) ∧
    (options.session = none → env.session = none →
      getSession options env.session = DEFAULT_SESSION) := by
  refine ⟨by simp [zellij, finalArgsOf, h], fun s hs => ?_,
    fun hn s hs => ?_, fun hn he => ?_⟩ <;> simp [getSession, *]

theorem zellij_session_injection_witness :
    (zellij ⟨fun _ => ⟨none, "", ""⟩, some "env-session"⟩ ["action", "x"] {}).1 =
      [Ev.spawn ["--session", "env-session", "action", "x"]] ∧
    getSession {} (some "env-session") = "env-session" := by
  have h := zellij_session_injection ⟨fun _ => ⟨none, "", ""⟩, some "env-session"⟩
    ["action", "x"] {} rfl
  exact ⟨by rw [h.1, h.2.2.1 rfl "env-session" rfl], h.2.2.1 rfl "env-session" rfl⟩

/-- C9: a raw call spawns the argument list unchanged, and the raw wrapper
paths force raw mode no matter what options the caller supplied. -/
theorem zellij_raw_no_injection (env : Env) (args : List String)
    (options : ZellijOptions) :
    (options.raw.getD false = true → (zellij env args options).1 = [Ev.spawn args]) ∧
    (zellijRaw env args options).1 = [Ev.spawn args] ∧
    (zellijRawOrThrow env args options).1 = [Ev.spawn args] := by
  refine ⟨fun h => by simp [zellij, finalArgsOf, h], ?_, ?_⟩
  · simp [zellijRaw, zellij, finalArgsOf]
  · unfold zellijRawOrThrow zellijRaw zellij finalArgsOf
    simp only [Option.getD_some, if_true]
    cases exec args (options.timeout.getD DEFAULT_TIMEOUT_MS) (env.run args) with
    | error e => rfl
    | ok r =>
      by_cases hr : r.exitCode ≠ 0 <;> simp [hr]

theorem zellij_raw_no_injection_witness :
    (zellij ⟨fun _ => ⟨none, "", ""⟩, none⟩ ["list-sessions"]
      { raw := some true }).1 = [Ev.spawn ["list-sessions"]] :=
  (zellij_raw_no_injection ⟨fun _ => ⟨none, "", ""⟩, none⟩ ["list-sessions"]
    { raw := some true }).1 rfl

/-! ### The capture group is never empty -/

theorem splitName_ne_nil {s : List Char} {n rest : List Char}
    (h : splitName s = some (n, rest)) : n ≠ [] := by
  unfold splitName at h
  by_cases hc : s.takeWhile notQuote ≠ [] ∧ (s.dropWhile notQuote).head? = some '"'
  · rw [if_pos hc] at h
    simp only [Option.some.injEq, Prod.mk.injEq] at h
    exact h.1 ▸ hc.1
  · rw [if_neg hc] at h
    exact absurd h (by simp)

theorem tryMatchAt_ne_nil {s : List Char} {n : List Char}
    (h : tryMatchAt s = some n) : n ≠ [] := by
  unfold tryMatchAt at h
  cases h1 : dropLit tabLit s with
  | none => simp [h1] at h
  | some s1 =>
    rw [h1, Option.some_bind] at h
    cases h2 : dropWs1 s1 with
    | none => simp [h2] at h
    | some s2 =>
      rw [h2, Option.some_bind] at h
      cases h3 : dropLit nameLit s2 with
      | none => simp [h3] at h
      | some s3 =>
        rw [h3, Option.some_bind] at h
        cases h4 : splitName s3 with
        | none => simp [h4] at h
        | some p =>
          rw [h4, Option.some_bind] at h
          by_cases h5 : focusSearch '"' p.2 = true
          · rw [if_pos h5] at h
            obtain ⟨n4, s4⟩ := p
            exact (Option.some_injective _ h) ▸ splitName_ne_nil h4
          · rw [if_neg h5] at h
            exact absurd h (by simp)

theorem scanFocus_ne_nil {l n : List Char} (h : scanFocus l = some n) :
    n ≠ [] := by
  induction l with
  | nil => simp [scanFocus] at h
  | cons c cs ih =>
    unfold scanFocus at h
    cases hm : tryMatchAt (c :: cs) with
    | none => rw [hm] at h; exact ih h
    | some m => rw [hm] at h; exact (Option.some_injective _ h) ▸ tryMatchAt_ne_nil hm

theorem parseFocusedTabName_ne_empty {L : String} {nm : String}
    (h : parseFocusedTabName L = some nm) : nm ≠ "" := by
  unfold parseFocusedTabName at h
  cases hs : scanFocus L.data with
  | none => rw [hs] at h; simp at h
  | some n =>
    rw [hs] at h
    simp only [Option.map_some', Option.some.injEq] at h
    have hn := scanFocus_ne_nil hs
    intro hcon
    rw [← h] at hcon
    exact hn (by simpa [String.ext_iff] using hcon)

/-! ### C4: checked action path -/

/-- C4: given that the underlying command resolved with result `r`, the
checked action path rejects exactly when `r.exitCode ≠ 0`; the rejection
message contains the failing verb and the preferred diagnostic text
(stderr, else stdout, else `"unknown error"`), and the trace shows the
single spawn with no settling delay.  On success it returns the result's
(trailing-trimmed) stdout after the `POST_ACTION_DELAY_MS = 60` ms delay. -/
theorem zellijActionOrThrow_semantics (env : Env) (verb : String)
    (rest : List String) (options : ZellijOptions) (r : ZellijResult)
    (fa : List String)
    (hfa : fa = finalArgsOf env ("action" :: verb :: rest) options)
    (h : exec fa (options.timeout.getD DEFAULT_TIMEOUT_MS) (env.run fa) =
      Except.ok r) :
    (r.exitCode ≠ 0 →
      zellijActionOrThrow env (verb :: rest) options =
        ([Ev.spawn fa], Except.error (actionFailMsg (verb :: rest) r)) ∧
      strIncl verb (actionFailMsg (verb :: rest) r) ∧
      (r.stderr ≠ "" → strIncl r.stderr (actionFailMsg (verb :: rest) r)) ∧
      (r.stderr = "" → r.stdout ≠ "" →
        strIncl r.stdout (actionFailMsg (verb :: rest) r)) ∧
      (r.stderr = "" → r.stdout = "" →
        strIncl "unknown error" (actionFailMsg (verb :: rest) r))) ∧
    (r.exitCode = 0 →
      zellijActionOrThrow env (verb :: rest) options =
        ([Ev.spawn fa, Ev.sleep POST_ACTION_DELAY_MS], Except.ok r.stdout)) := by
  subst hfa
  constructor
  · intro hr
    refine ⟨?_, ?_, ?_, ?_, ?_⟩
    · simp only [zellijActionOrThrow, zellijAction, zellij]
      rw [h]
      simp [hr]
    · have := strIncl_mid "zellij action " verb
        (" failed (exit " ++ toString r.exitCode ++ "): " ++ detailOf r)
      simpa [actionFailMsg, strIncl, string_data_append, List.append_assoc]
        using this
    · intro hse
      have := strIncl_mid
        ("zellij action " ++ verb ++ " failed (exit " ++ toString r.exitCode ++ "): ")
        r.stderr ""
      simpa [actionFailMsg, detailOf, hse, strIncl, string_data_append,
        List.append_assoc] using this
    · intro hse hso
      have := strIncl_mid
        ("zellij action " ++ verb ++ " failed (exit " ++ toString r.exitCode ++ "): ")
        r.stdout ""
      simpa [actionFailMsg, detailOf, hse, hso, strIncl, string_data_append,
        List.append_assoc] using this
    · intro hse hso
      have := strIncl_mid
        ("zellij action " ++ verb ++ " failed (exit " ++ toString r.exitCode ++ "): ")
        "unknown error" ""
      simpa [actionFailMsg, detailOf, hse, hso, strIncl, string_data_append,
        List.append_assoc] using this
  · intro hr
    simp only [zellijActionOrThrow, zellijAction, zellij]
    rw [h]
    simp [hr]

theorem zellijActionOrThrow_semantics_witness :
    zellijActionOrThrow ⟨fun _ => ⟨some ⟨false, some (ErrCode.num 2)⟩, "", "boom"⟩, none⟩
      ["close-tab"] {} =
      ([Ev.spawn ["--session", "zellij-mcp", "action", "close-tab"]],
        Except.error (actionFailMsg ["close-tab"] ⟨"", "boom", 2⟩)) ∧
    strIncl "close-tab" (actionFailMsg ["close-tab"] ⟨"", "boom", 2⟩) ∧
    strIncl "boom" (actionFailMsg ["close-tab"] ⟨"", "boom", 2⟩) := by
  have h := zellijActionOrThrow_semantics
    ⟨fun _ => ⟨some ⟨false, some (ErrCode.num 2)⟩, "", "boom"⟩, none⟩
    "close-tab" [] {} ⟨"", "boom", 2⟩
    ["--session", "zellij-mcp", "action", "close-tab"] rfl rfl
  have h1 := h.1 (by decide)
  exact ⟨h1.1, h1.2.1, h1.2.2.1 (by decide)⟩

/-! ### C1 / C3: the snapshot/act/restore protocol -/

/-- A successful snapshot step, fully computed: one dump-layout spawn, the
settling delay, and the parsed focus result. -/
theorem getFocusedTabName_ok (env : Env) (options : ZellijOptions)
    (r0 : ZellijResult) (dumpFa : List String)
    (hfa : dumpFa = finalArgsOf env ["action", "dump-layout"] options)
    (h0 : exec dumpFa (options.timeout.getD DEFAULT_TIMEOUT_MS)
      (env.run dumpFa) = Except.ok r0)
    (hex : r0.exitCode = 0) :
    getFocusedTabName env options =
      ([Ev.spawn dumpFa, Ev.sleep POST_ACTION_DELAY_MS],
        Except.ok (parseFocusedTabName r0.stdout)) := by
  subst hfa
  simp only [getFocusedTabName, zellijActionOrThrow, zellijAction, zellij]
  rw [h0]
  simp [hex]

/-- C1: with `preserve = true` and a dump whose parse reports a focused tab,
the operation spawns, in order: the dump-layout call, then the action's own
calls, then exactly one go-to-tab-name call naming the snapshotted tab; and
when that restoration call itself succeeds the operation returns the
action's resolved value.  When the parse reports no focused tab, only the
dump-layout call and the action's calls occur and the action's value is
returned. -/
theorem withFocusPreservation_order {α : Type} (env : Env)
    (options : ZellijOptions) (ta : List Ev) (v : α) (r0 : ZellijResult)
    (dumpFa : List String)
    (hfa : dumpFa = finalArgsOf env ["action", "dump-layout"] options)
    (h0 : exec dumpFa (options.timeout.getD DEFAULT_TIMEOUT_MS)
      (env.run dumpFa) = Except.ok r0)
    (hex : r0.exitCode = 0) :
    (∀ nm gotoFa, parseFocusedTabName r0.stdout = some nm →
      gotoFa = finalArgsOf env ["action", "go-to-tab-name", nm] options →
      spawnCalls (withFocusPreservation ((ta, Except.ok v) : M α) true env
          options).1 =
        dumpFa :: (spawnCalls ta ++ [gotoFa]) ∧
      (∀ r1, exec gotoFa (options.timeout.getD DEFAULT_TIMEOUT_MS)
          (env.run gotoFa) = Except.ok r1 → r1.exitCode = 0 →
        withFocusPreservation ((ta, Except.ok v) : M α) true env options =
          ([Ev.spawn dumpFa, Ev.sleep POST_ACTION_DELAY_MS] ++ ta ++
            [Ev.spawn gotoFa, Ev.sleep POST_ACTION_DELAY_MS], Except.ok v))) ∧
    (parseFocusedTabName r0.stdout = none →
      withFocusPreservation ((ta, Except.ok v) : M α) true env options =
        ([Ev.spawn dumpFa, Ev.sleep POST_ACTION_DELAY_MS] ++ ta,
          Except.ok v)) := by
  have hsnap := getFocusedTabName_ok env options r0 dumpFa hfa h0 hex
  constructor
  · intro nm gotoFa hparse hgfa
    have hnm : nm ≠ "" := parseFocusedTabName_ne_empty hparse
    have hbody : withFocusPreservation ((ta, Except.ok v) : M α) true env options =
        match zellijActionOrThrow env ["go-to-tab-name", nm] options with
        | (tr, Except.error e) =>
          (([Ev.spawn dumpFa, Ev.sleep POST_ACTION_DELAY_MS] ++ ta) ++ tr,
            Except.error e)
        | (tr, Except.ok _) =>
          (([Ev.spawn dumpFa, Ev.sleep POST_ACTION_DELAY_MS] ++ ta) ++ tr,
            Except.ok v) := by
      unfold withFocusPreservation
      rw [hsnap, hparse]
      simp [hnm]
    constructor
    · rw [hbody]
      simp only [zellijActionOrThrow, zellijAction, zellij]
      rw [← hgfa]
      cases hgo : exec gotoFa (options.timeout.getD DEFAULT_TIMEOUT_MS)
          (env.run gotoFa) with
      | error e => simp [spawnCalls, List.filterMap_append]
      | ok r1 =>
        by_cases hr1 : r1.exitCode ≠ 0 <;>
          simp [hr1, spawnCalls, List.filterMap_append]
    · intro r1 hgo hr1
      rw [hbody]
      simp only [zellijActionOrThrow, zellijAction, zellij]
      rw [← hgfa, hgo]
      simp [hr1]
  · intro hparse
    unfold withFocusPreservation
    rw [hsnap, hparse]
    simp

/-- C3: failure semantics of the preserved path.  If the snapshot step
fails, the wrapped action is never invoked (the outcome is the snapshot's
own trace and rejection, for every action); if the snapshot succeeds but
the action rejects, restoration is skipped and the action's rejection
propagates unmodified. -/
theorem withFocusPreservation_failures {α : Type} (env : Env)
    (options : ZellijOptions) :
    (∀ (t : List Ev) (e : String) (action : M α),
      getFocusedTabName env options = (t, Except.error e) →
      withFocusPreservation action true env options = (t, Except.error e)) ∧
    (∀ (t : List Ev) (focused : Option String) (ta : List Ev) (e : String),
      getFocusedTabName env options = (t, Except.ok focused) →
      withFocusPreservation ((ta, Except.error e) : M α) true env options =
        (t ++ ta, Except.error e)) := by
  constructor
  · intro t e action h
    unfold withFocusPreservation
    rw [h]
    simp
  · intro t focused ta e h
    unfold withFocusPreservation
    rw [h]
    simp

/-- A concrete environment whose layout dump reports tab `original` as
focused: used to instantiate the protocol theorems. -/
def envFocusedOriginal : Env :=
  ⟨fun a =>
    if a = ["--session", "zellij-mcp", "action", "dump-layout"]
    then ⟨none, "tab name=\"original\" focus=true", ""⟩
    else ⟨none, "", ""⟩, none⟩

theorem withFocusPreservation_order_witness :
    spawnCalls (withFocusPreservation (([], Except.ok "done") : M String) true
        envFocusedOriginal {}).1 =
      [["--session", "zellij-mcp", "action", "dump-layout"],
       ["--session", "zellij-mcp", "action", "go-to-tab-name", "original"]] ∧
    withFocusPreservation (([], Except.ok "done") : M String) true
        envFocusedOriginal {} =
      ([Ev.spawn ["--session", "zellij-mcp", "action", "dump-layout"],
        Ev.sleep POST_ACTION_DELAY_MS,
        Ev.spawn ["--session", "zellij-mcp", "action", "go-to-tab-name", "original"],
        Ev.sleep POST_ACTION_DELAY_MS], Except.ok "done") := by
  have h := withFocusPreservation_order (α := String) envFocusedOriginal {}
    [] "done" ⟨"tab name=\"original\" focus=true", "", 0⟩
    ["--session", "zellij-mcp", "action", "dump-layout"] rfl rfl rfl
  have h1 := h.1 "original"
    ["--session", "zellij-mcp", "action", "go-to-tab-name", "original"]
    (by decide) rfl
  refine ⟨by simpa [spawnCalls] using h1.1, ?_⟩
  have h2 := h1.2 ⟨"", "", 0⟩ rfl rfl
  simpa using h2

/-- A concrete environment whose layout dump request times out. -/
def envDumpTimesOut : Env :=
  ⟨fun a =>
    if a = ["--session", "zellij-mcp", "action", "dump-layout"]
    then ⟨some ⟨true, none⟩, "", ""⟩
    else ⟨none, "", ""⟩, none⟩

theorem withFocusPreservation_failures_witness :
    withFocusPreservation (([Ev.spawn ["--session", "zellij-mcp", "action", "x"]],
        Except.ok "v") : M String) true envDumpTimesOut {} =
      ([Ev.spawn ["--session", "zellij-mcp", "action", "dump-layout"]],
        Except.error (timeoutMsg DEFAULT_TIMEOUT_MS
          ["--session", "zellij-mcp", "action", "dump-layout"])) ∧
    withFocusPreservation (([Ev.spawn ["--session", "zellij-mcp", "action", "x"]],
        Except.error "action blew up") : M String) true envFocusedOriginal {} =
      ([Ev.spawn ["--session", "zellij-mcp", "action", "dump-layout"],
        Ev.sleep POST_ACTION_DELAY_MS,
        Ev.spawn ["--session", "zellij-mcp", "action", "x"]],
        Except.error "action blew up") := by
  constructor
  · exact (withFocusPreservation_failures (α := String) envDumpTimesOut {}).1
      [Ev.spawn ["--session", "zellij-mcp", "action", "dump-layout"]]
      (timeoutMsg DEFAULT_TIMEOUT_MS
        ["--session", "zellij-mcp", "action", "dump-layout"])
      _ (by simp only [getFocusedTabName, zellijActionOrThrow, zellijAction,
            zellij]; rfl)
  · exact (withFocusPreservation_failures (α := String) envFocusedOriginal {}).2
      [Ev.spawn ["--session", "zellij-mcp", "action", "dump-layout"],
        Ev.sleep POST_ACTION_DELAY_MS]
      (some "original")
      [Ev.spawn ["--session", "zellij-mcp", "action", "x"]]
      "action blew up"
      (by simp only [getFocusedTabName, zellijActionOrThrow, zellijAction,
            zellij]; rfl)

/-! ### Scanner machinery: positions that cannot start a match -/

theorem dropLit_self_append : ∀ (p s : List Char), dropLit p (p ++ s) = some s
  | [], _ => rfl
  | c :: ps, s => by
    have h := dropLit_self_append ps s
    simp [dropLit, h]

theorem not_pre_dropLit : ∀ {p s : List Char}, ¬ p <+: s → dropLit p s = none
  | [], _, h => absurd List.nil_prefix h
  | _ :: _, [], _ => rfl
  | p :: ps, c :: cs, h => by
    unfold dropLit
    by_cases hc : c = p
    · subst hc
      rw [if_pos rfl]
      exact not_pre_dropLit fun ⟨t, ht⟩ => h ⟨t, by rw [← ht]; rfl⟩
    · rw [if_neg hc]

theorem tryMatchAt_none_of_not_tab {s : List Char} (h : ¬ tabLit <+: s) :
    tryMatchAt s = none := by
  simp [tryMatchAt, not_pre_dropLit h]

theorem scanFocus_cons_none {c : Char} {cs : List Char}
    (h : tryMatchAt (c :: cs) = none) : scanFocus (c :: cs) = scanFocus cs := by
  simp [scanFocus, h]

theorem scanFocus_cons_ne {c : Char} (h : c ≠ 't') (cs : List Char) :
    scanFocus (c :: cs) = scanFocus cs := by
  refine scanFocus_cons_none (tryMatchAt_none_of_not_tab ?_)
  rintro ⟨t2, ht2⟩
  injection ht2 with h1 _
  exact h h1.symm

/-- A pattern cannot be a prefix of `x ++ y` when it does not occur at the
start of `x` and `y`'s first character does not occur past the pattern's
first position. -/
theorem pre_append_blocked {pat x y : List Char} (hne : x ≠ [])
    (hx : ¬ pat <:+: x)
    (hy : ∀ ch, y.head? = some ch → ch ∉ pat.tail) :
    ¬ pat <+: x ++ y := by
  intro hp
  rcases pre_append_cases hp with h1 | ⟨h1, h2⟩
  · rcases h1 with ⟨t2, ht2⟩
    exact hx ⟨[], t2, by simpa using ht2⟩
  · by_cases hl : x.length = pat.length
    · have hx2 : x = pat := h1.eq_of_length hl
      exact hx (hx2 ▸ ⟨[], [], by simp⟩)
    · have hlt : x.length < pat.length := lt_of_le_of_ne h1.length_le hl
      have hk : 1 ≤ x.length := by
        rcases x with _ | ⟨a, xs⟩
        · exact absurd rfl hne
        · simp
      rcases h2 with ⟨t3, ht3⟩
      cases hdk : pat.drop x.length with
      | nil =>
        have := List.length_drop x.length pat
        rw [hdk] at this
        simp at this
        omega
      | cons ch tl =>
        rw [hdk] at ht3
        have hh : y.head? = some ch := by rw [← ht3]; rfl
        have hmem : ch ∈ pat.tail := by
          have h5 : pat.drop x.length = pat.tail.drop (x.length - 1) := by
            have : pat.tail = pat.drop 1 := (List.drop_one pat).symm
            rw [this, List.drop_drop]
            congr 1
            omega
          have h6 : ch ∈ pat.tail.drop (x.length - 1) := by
            rw [← h5, hdk]
            exact List.mem_cons_self ch tl
          exact List.mem_of_mem_drop h6
        exact hy ch hh hmem

/-- Skipping a segment free of `tab` occurrences: the scanner passes it
without matching, provided the next segment does not start with a character
that could complete a straddling occurrence of `tab`. -/
theorem scanFocus_skip (s rest : List Char)
    (hh : ∀ ch, rest.head? = some ch → ch ∉ tabLit.tail) :
    ¬ tabLit <:+: s → scanFocus (s ++ rest) = scanFocus rest := by
  induction s with
  | nil => intro _; simp
  | cons c s' ih =>
    intro hs
    have hs' : ¬ tabLit <:+: s' := fun ⟨a, b, hab⟩ =>
      hs ⟨c :: a, b, by rw [← hab]; simp⟩
    have hpre : ¬ tabLit <+: (c :: s') ++ rest :=
      pre_append_blocked (by simp) hs hh
    have hnone : tryMatchAt (c :: (s' ++ rest)) = none :=
      tryMatchAt_none_of_not_tab (by simpa using hpre)
    rw [List.cons_append, scanFocus_cons_none hnone]
    exact ih hs'

/-! ### A structured model of layout dumps

A dump is rendered from a list of tab entries, each carrying a declared
name, further attributes between the name and the (optional) focus marker,
and an opaque body enclosed in braces — the attribute-presence contract the
parser consumes.  Well-formedness keeps the components from spoofing the
delimiters the regex keys on. -/

structure TabEntry where
  name : List Char
  attrs : List (List Char)
  focus : Bool
  body : List Char

/-- Attributes, each followed by a single space. -/
def renderAttrs : List (List Char) → List Char
  | [] => []
  | a :: as => a ++ ' ' :: renderAttrs as

/-- `tab name="<name>" <attrs> [focus=true ]{<body>}\n`. -/
def renderTab (t : TabEntry) : List Char :=
  't' :: 'a' :: 'b' :: ' ' :: 'n' :: 'a' :: 'm' :: 'e' :: '=' :: '"' ::
    (t.name ++ '"' :: ' ' ::
      (renderAttrs t.attrs ++
        ((if t.focus then focusLit ++ [' '] else []) ++
          '{' :: (t.body ++ ['}', '\n']))))

def renderLayout : List TabEntry → List Char
  | [] => []
  | t :: ts => renderTab t ++ renderLayout ts

/-- An attribute may not itself contain the `tab` or `focus=true` tokens nor
an opening brace. -/
def attrOk (a : List Char) : Prop :=
  ¬ tabLit <:+: a ∧ ¬ focusLit <:+: a ∧ '{' ∉ a

/-- Well-formed tab entry: the name contains no quote and no `tab` token,
every attribute is admissible, and the body contains no `tab` token. -/
def wfTab (t : TabEntry) : Prop :=
  '"' ∉ t.name ∧ ¬ tabLit <:+: t.name ∧ (∀ a ∈ t.attrs, attrOk a) ∧
    ¬ tabLit <:+: t.body

instance (a : List Char) : Decidable (attrOk a) := by
  unfold attrOk
  infer_instance

instance (t : TabEntry) : Decidable (wfTab t) := by
  unfold wfTab
  infer_instance

/-- The name of the first entry the regex can match: focused and with a
non-empty name. -/
def firstMatchName : List TabEntry → Option (List Char)
  | [] => none
  | t :: ts => if t.focus = true ∧ t.name ≠ [] then some t.name else firstMatchName ts

/-- The name of the first entry carrying the focus marker. -/
def firstFocusedName : List TabEntry → Option (List Char)
  | [] => none
  | t :: ts => if t.focus = true then some t.name else firstFocusedName ts

/-- What follows the closing quote of an entry's name in the rendered dump. -/
def tailAfterName (t : TabEntry) (r : List Char) : List Char :=
  ' ' :: (renderAttrs t.attrs ++
    ((if t.focus then focusLit ++ [' '] else []) ++
      '{' :: (t.body ++ '}' :: '\n' :: r)))

theorem renderTab_append (t : TabEntry) (r : List Char) :
    renderTab t ++ r =
      't' :: 'a' :: 'b' :: ' ' :: 'n' :: 'a' :: 'm' :: 'e' :: '=' :: '"' ::
        (t.name ++ '"' :: tailAfterName t r) := by
  simp [renderTab, tailAfterName, List.append_assoc]

/-! ### Evaluating one match attempt at an entry header -/

theorem jsSpace_space : jsSpace ' ' = true := by decide

theorem jsSpace_n : jsSpace 'n' = false := by decide

theorem dropLit_tab_step (rest : List Char) :
    dropLit tabLit ('t' :: 'a' :: 'b' :: rest) = some rest := by
  simp [tabLit, dropLit]

theorem dropWs1_step (rest : List Char) :
    dropWs1 (' ' :: 'n' :: rest) = some ('n' :: rest) := by
  simp [dropWs1, List.dropWhile_cons, jsSpace_space, jsSpace_n]

theorem dropLit_name_step (rest : List Char) :
    dropLit nameLit ('n' :: 'a' :: 'm' :: 'e' :: '=' :: '"' :: rest) =
      some rest := by
  simp [nameLit, dropLit]

theorem takeWhile_notQuote_append :
    ∀ (n : List Char), '"' ∉ n → ∀ rest : List Char,
      (n ++ '"' :: rest).takeWhile notQuote = n
  | [], _, rest => by simp [List.takeWhile_cons, notQuote]
  | c :: n', hq, rest => by
    have hc : c ≠ '"' := fun h => hq (h ▸ List.mem_cons_self c n')
    have ih := takeWhile_notQuote_append n'
      (fun hm => hq (List.mem_cons_of_mem c hm)) rest
    simp [List.takeWhile_cons, notQuote, hc, ih]

theorem dropWhile_notQuote_append :
    ∀ (n : List Char), '"' ∉ n → ∀ rest : List Char,
      (n ++ '"' :: rest).dropWhile notQuote = '"' :: rest
  | [], _, rest => by simp [List.dropWhile_cons, notQuote]
  | c :: n', hq, rest => by
    have hc : c ≠ '"' := fun h => hq (h ▸ List.mem_cons_self c n')
    have ih := dropWhile_notQuote_append n'
      (fun hm => hq (List.mem_cons_of_mem c hm)) rest
    simp [List.dropWhile_cons, notQuote, hc, ih]

theorem splitName_append {n : List Char} (hq : '"' ∉ n) (hn : n ≠ [])
    (rest : List Char) : splitName (n ++ '"' :: rest) = some (n, rest) := by
  unfold splitName
  rw [takeWhile_notQuote_append n hq rest, dropWhile_notQuote_append n hq rest]
  simp [hn]

theorem splitName_empty_name (rest : List Char) :
    splitName ('"' :: rest) = none := by
  simp [splitName, List.takeWhile_cons, notQuote]

theorem tryMatchAt_renderTab (t : TabEntry) (r : List Char)
    (hq : '"' ∉ t.name) :
    tryMatchAt (renderTab t ++ r) =
      if t.name ≠ [] ∧ focusSearch '"' (tailAfterName t r) = true
      then some t.name else none := by
  rw [renderTab_append]
  unfold tryMatchAt
  rw [dropLit_tab_step, Option.some_bind, dropWs1_step, Option.some_bind,
    dropLit_name_step, Option.some_bind]
  by_cases hn : t.name = []
  · rw [hn]
    simp [splitName_empty_name]
  · rw [splitName_append hq hn]
    by_cases hfs : focusSearch '"' (tailAfterName t r) = true <;>
      simp [hn, hfs]

/-! ### Finding or refusing the focus marker after a name -/

theorem isPre_self_append (p s : List Char) : p.isPrefixOf (p ++ s) = true :=
  List.isPrefixOf_iff_prefix.mpr (List.prefix_append p s)

theorem focusSearch_hit : ∀ (x : List Char) (p : Char) (z : List Char),
    '{' ∉ x → jsWordChar (x.getLastD p) = false →
    focusSearch p (x ++ (focusLit ++ z)) = true
  | [], p, z, _, hlast => by
    have hp2 : jsWordChar p = false := hlast
    have hpre : focusLit <+: 'f' :: 'o' :: 'c' :: 'u' :: 's' :: '=' :: 't' ::
        'r' :: 'u' :: 'e' :: z := List.prefix_append focusLit z
    show focusSearch p
      ('f' :: 'o' :: 'c' :: 'u' :: 's' :: '=' :: 't' :: 'r' :: 'u' :: 'e' :: z) = true
    unfold focusSearch
    simp [hpre, hp2, List.isPrefixOf_iff_prefix]
  | c :: x', p, z, hx, hlast => by
    have hc : c ≠ '{' := fun h => hx (h ▸ List.mem_cons_self c x')
    rw [List.getLastD_cons] at hlast
    have ih := focusSearch_hit x' c z
      (fun hm => hx (List.mem_cons_of_mem c hm)) hlast
    rw [List.cons_append]
    unfold focusSearch
    simp [hc, ih]

theorem focusSearch_stop : ∀ (x : List Char) (p : Char) (rest : List Char),
    ¬ focusLit <:+: x → focusSearch p (x ++ '{' :: rest) = false
  | [], p, rest, _ => by
    have hpre : ¬ focusLit <+: '{' :: rest := by
      rintro ⟨t2, ht2⟩
      injection ht2 with h1 _
      exact absurd h1 (by decide)
    show focusSearch p ('{' :: rest) = false
    unfold focusSearch
    simp [hpre, List.isPrefixOf_iff_prefix]
  | c :: x', p, rest, hx => by
    have hnp : ¬ focusLit <+: c :: (x' ++ '{' :: rest) := by
      have := @pre_append_blocked focusLit (c :: x') ('{' :: rest)
        (by simp) hx (by
          intro ch hch hmem
          simp only [List.head?_cons, Option.some.injEq] at hch
          subst hch
          revert hmem
          decide)
      simpa using this
    rw [List.cons_append]
    unfold focusSearch
    by_cases hc : c = '{'
    · subst hc
      simp [hnp, List.isPrefixOf_iff_prefix]
    · have ih := focusSearch_stop x' c rest
        (fun ⟨a, b, hab⟩ => hx ⟨c :: a, b, by rw [← hab]; simp⟩)
      simp [hnp, hc, ih, List.isPrefixOf_iff_prefix]

/-! ### Rendered attributes -/

theorem brace_not_mem_renderAttrs : ∀ (as : List (List Char)),
    (∀ a ∈ as, '{' ∉ a) → '{' ∉ renderAttrs as
  | [], _ => by simp [renderAttrs]
  | a :: as', h => by
    intro hm
    rw [renderAttrs] at hm
    rcases List.mem_append.mp hm with h1 | h1
    · exact h a (List.mem_cons_self a as') h1
    · rcases List.mem_cons.mp h1 with h2 | h2
      · exact absurd h2 (by decide)
      · exact brace_not_mem_renderAttrs as'
          (fun b hb => h b (List.mem_cons_of_mem a hb)) h2

theorem renderAttrs_last? : ∀ (as : List (List Char)), as ≠ [] →
    (renderAttrs as).getLast? = some ' '
  | [], h => absurd rfl h
  | [a], _ => by
    rw [renderAttrs, renderAttrs]
    exact List.getLast?_concat a
  | a :: b :: as', _ => by
    have ih := renderAttrs_last? (b :: as') (by simp)
    rw [renderAttrs, List.getLast?_append]
    rw [show (' ' :: renderAttrs (b :: as')) = [' '] ++ renderAttrs (b :: as')
      from rfl, List.getLast?_append, ih]
    rfl

theorem renderAttrs_lastD_space (as : List (List Char)) :
    (renderAttrs as).getLastD ' ' = ' ' := by
  cases has : as with
  | nil => rfl
  | cons a as' =>
    have h := renderAttrs_last? (a :: as') (by simp)
    simp [List.getLastD_eq_getLast?, h]

theorem no_infix_renderAttrs {pat : List Char} (hsp : ' ' ∉ pat)
    (hne : pat ≠ []) : ∀ (as : List (List Char)),
    (∀ a ∈ as, ¬ pat <:+: a) → ¬ pat <:+: renderAttrs as
  | [], _ => by
    rintro ⟨s, t2, hst⟩
    rw [renderAttrs] at hst
    rcases List.append_eq_nil.mp hst with ⟨h1, _⟩
    exact hne (List.append_eq_nil.mp h1).2
  | a :: as', h => by
    intro hinf
    rcases inf_iff_drop.mp hinf with ⟨i, hp⟩
    rw [renderAttrs] at hp
    rcases le_or_lt a.length i with hle | hlt
    · rw [List.drop_append_eq_append_drop,
        List.drop_eq_nil_iff.mpr hle, List.nil_append] at hp
      cases hj : i - a.length with
      | zero =>
        rw [hj, List.drop_zero] at hp
        rcases pat with _ | ⟨pc, pt⟩
        · exact hne rfl
        · have := (List.cons_prefix_cons.mp hp).1
          exact hsp (this ▸ List.mem_cons_self pc pt)
      | succ j' =>
        rw [hj] at hp
        have : pat <+: (renderAttrs as').drop j' := by
          simpa [List.drop_succ_cons] using hp
        exact no_infix_renderAttrs hsp hne as'
          (fun b hb => h b (List.mem_cons_of_mem a hb))
          (inf_iff_drop.mpr ⟨j', this⟩)
    · rw [List.drop_append_eq_append_drop] at hp
      have hz : i - a.length = 0 := by omega
      rw [hz, List.drop_zero] at hp
      have hnd : ¬ pat <+: a.drop i ++ (' ' :: renderAttrs as') := by
        refine pre_append_blocked ?_ ?_ ?_
        · intro h0
          have := congrArg List.length h0
          simp at this
          omega
        · intro hin
          rcases inf_iff_drop.mp hin with ⟨j, hpj⟩
          rw [List.drop_drop] at hpj
          exact h a (List.mem_cons_self a as') (inf_iff_drop.mpr ⟨i + j, hpj⟩)
        · intro ch hch hmem
          simp only [List.head?_cons, Option.some.injEq] at hch
          subst hch
          exact hsp (List.mem_of_mem_tail hmem)
      exact hnd hp

/-! ### Scanning a whole rendered entry -/

theorem scanFocus_none : ∀ (l : List Char), ¬ tabLit <:+: l → scanFocus l = none
  | [], _ => rfl
  | c :: cs, h => by
    have h0 : tryMatchAt (c :: cs) = none := tryMatchAt_none_of_not_tab
      (fun ⟨t2, ht2⟩ => h ⟨[], t2, by simpa using ht2⟩)
    rw [scanFocus_cons_none h0]
    exact scanFocus_none cs (fun ⟨a, b, hab⟩ => h ⟨c :: a, b, by rw [← hab]; simp⟩)

theorem scanFocus_entry_skip (t : TabEntry) (r : List Char) (hwf : wfTab t)
    (hmiss : t.focus = false ∨ t.name = []) :
    scanFocus (renderTab t ++ r) = scanFocus r := by
  obtain ⟨hq, hname, hattrs, hbody⟩ := hwf
  have hAnoTab : ¬ tabLit <:+: renderAttrs t.attrs :=
    no_infix_renderAttrs (by decide) (by decide) t.attrs
      (fun a ha => (hattrs a ha).1)
  have hAnoFocus : ¬ focusLit <:+: (' ' :: renderAttrs t.attrs) := by
    intro hin
    rcases inf_iff_drop.mp hin with ⟨i, hp⟩
    cases i with
    | zero =>
      rw [List.drop_zero] at hp
      rcases hp with ⟨t2, ht2⟩
      injection ht2 with h1 _
      exact absurd h1 (by decide)
    | succ i' =>
      rw [List.drop_succ_cons] at hp
      exact no_infix_renderAttrs (by decide) (by decide) t.attrs
        (fun a ha => (hattrs a ha).2.1) (inf_iff_drop.mpr ⟨i', hp⟩)
  have h0 : tryMatchAt (renderTab t ++ r) = none := by
    rw [tryMatchAt_renderTab t r hq]
    rcases hmiss with hf | hn
    · have hfs : focusSearch '"' (tailAfterName t r) = false := by
        unfold tailAfterName
        rw [hf]
        simp only [Bool.false_eq_true, if_false, List.nil_append]
        have := focusSearch_stop (' ' :: renderAttrs t.attrs) '"'
          (t.body ++ '}' :: '\n' :: r) hAnoFocus
        simpa using this
      simp [hfs]
    · simp [hn]
  rw [renderTab_append] at h0 ⊢
  rw [scanFocus_cons_none h0,
    scanFocus_cons_ne (show 'a' ≠ 't' by decide),
    scanFocus_cons_ne (show 'b' ≠ 't' by decide),
    scanFocus_cons_ne (show ' ' ≠ 't' by decide),
    scanFocus_cons_ne (show 'n' ≠ 't' by decide),
    scanFocus_cons_ne (show 'a' ≠ 't' by decide),
    scanFocus_cons_ne (show 'm' ≠ 't' by decide),
    scanFocus_cons_ne (show 'e' ≠ 't' by decide),
    scanFocus_cons_ne (show '=' ≠ 't' by decide),
    scanFocus_cons_ne (show '"' ≠ 't' by decide)]
  rw [scanFocus_skip t.name ('"' :: tailAfterName t r) (by
      intro ch hch
      simp only [List.head?_cons, Option.some.injEq] at hch
      subst hch
      decide) hname]
  rw [scanFocus_cons_ne (show '"' ≠ 't' by decide)]
  unfold tailAfterName
  rw [scanFocus_cons_ne (show ' ' ≠ 't' by decide)]
  cases hf2 : t.focus with
  | false =>
    simp only [hf2, Bool.false_eq_true, if_false, List.nil_append]
    rw [scanFocus_skip (renderAttrs t.attrs) _ (by
        intro ch hch
        simp only [List.head?_cons, Option.some.injEq] at hch
        subst hch
        decide) hAnoTab]
    rw [scanFocus_cons_ne (show '{' ≠ 't' by decide)]
    rw [scanFocus_skip t.body _ (by
        intro ch hch
        simp only [List.head?_cons, Option.some.injEq] at hch
        subst hch
        decide) hbody]
    rw [scanFocus_cons_ne (show '}' ≠ 't' by decide),
      scanFocus_cons_ne (show '\n' ≠ 't' by decide)]
  | true =>
    simp only [hf2, if_true]
    rw [scanFocus_skip (renderAttrs t.attrs) _ (by
        intro ch hch
        simp [focusLit] at hch
        subst hch
        decide) hAnoTab]
    rw [scanFocus_skip (focusLit ++ [' ']) _ (by
        intro ch hch
        simp only [List.head?_cons, Option.some.injEq] at hch
        subst hch
        decide) (by decide)]
    rw [scanFocus_cons_ne (show '{' ≠ 't' by decide)]
    rw [scanFocus_skip t.body _ (by
        intro ch hch
        simp only [List.head?_cons, Option.some.injEq] at hch
        subst hch
        decide) hbody]
    rw [scanFocus_cons_ne (show '}' ≠ 't' by decide),
      scanFocus_cons_ne (show '\n' ≠ 't' by decide)]

theorem scanFocus_entry_hit (t : TabEntry) (r : List Char) (hwf : wfTab t)
    (hf : t.focus = true) (hn : t.name ≠ []) :
    scanFocus (renderTab t ++ r) = some t.name := by
  obtain ⟨hq, _, hattrs, _⟩ := hwf
  have hfs : focusSearch '"' (tailAfterName t r) = true := by
    unfold tailAfterName
    simp only [hf, if_true]
    have heq : ' ' :: (renderAttrs t.attrs ++
        ((focusLit ++ [' ']) ++ '{' :: (t.body ++ '}' :: '\n' :: r))) =
        (' ' :: renderAttrs t.attrs) ++
          (focusLit ++ (' ' :: '{' :: (t.body ++ '}' :: '\n' :: r))) := by
      simp [List.append_assoc]
    rw [heq]
    refine focusSearch_hit (' ' :: renderAttrs t.attrs) '"' _ ?_ ?_
    · intro hm
      rcases List.mem_cons.mp hm with h1 | h1
      · exact absurd h1 (by decide)
      · exact brace_not_mem_renderAttrs t.attrs
          (fun a ha => (hattrs a ha).2.2) h1
    · rw [List.getLastD_cons, renderAttrs_lastD_space]
      decide
  have h0 : tryMatchAt (renderTab t ++ r) = some t.name := by
    rw [tryMatchAt_renderTab t r hq]
    simp [hn, hfs]
  rw [renderTab_append] at h0 ⊢
  simp [scanFocus, h0]

/-! ### The parser on a whole structured dump -/

theorem scanFocus_render_aux (post : List Char) (hpost : ¬ tabLit <:+: post) :
    ∀ (ts : List TabEntry), (∀ t ∈ ts, wfTab t) →
      scanFocus (renderLayout ts ++ post) = firstMatchName ts
  | [], _ => by
    rw [show renderLayout [] = [] from rfl, List.nil_append]
    exact scanFocus_none post hpost
  | t :: ts', h => by
    have hwt := h t (List.mem_cons_self t ts')
    have hrest := scanFocus_render_aux post hpost ts'
      (fun u hu => h u (List.mem_cons_of_mem t hu))
    rw [show renderLayout (t :: ts') = renderTab t ++ renderLayout ts' from rfl,
      List.append_assoc]
    by_cases hcond : t.focus = true ∧ t.name ≠ []
    · rw [scanFocus_entry_hit t _ hwt hcond.1 hcond.2]
      simp only [firstMatchName]
      rw [if_pos hcond]
    · have hmiss : t.focus = false ∨ t.name = [] := by
        by_cases hf : t.focus = true
        · right
          by_cases hn : t.name = []
          · exact hn
          · exact absurd ⟨hf, hn⟩ hcond
        · left
          exact Bool.eq_false_iff.mpr hf
      rw [scanFocus_entry_skip t _ hwt hmiss, hrest]
      simp only [firstMatchName]
      rw [if_neg hcond]

theorem renderLayout_post_head (ts : List TabEntry) (post : List Char)
    (hposthead : ∀ ch, post.head? = some ch → ch ∉ tabLit.tail) :
    ∀ ch, (renderLayout ts ++ post).head? = some ch → ch ∉ tabLit.tail := by
  cases ts with
  | nil =>
    intro ch hch
    rw [show renderLayout [] = [] from rfl, List.nil_append] at hch
    exact hposthead ch hch
  | cons t ts' =>
    intro ch hch
    rw [show renderLayout (t :: ts') = renderTab t ++ renderLayout ts' from rfl,
      List.append_assoc, renderTab_append] at hch
    simp only [List.head?_cons, Option.some.injEq] at hch
    subst hch
    decide

/-- The scanner on a full structured dump: a prologue free of `tab` tokens,
the rendered entries, and an epilogue free of `tab` tokens that does not
start with a character completing a straddled `tab` token. -/
theorem scanFocus_render_full (pre : List Char) (ts : List TabEntry)
    (post : List Char) (hpre : ¬ tabLit <:+: pre)
    (h : ∀ t ∈ ts, wfTab t) (hpost : ¬ tabLit <:+: post)
    (hposthead : ∀ ch, post.head? = some ch → ch ∉ tabLit.tail) :
    scanFocus (pre ++ (renderLayout ts ++ post)) = firstMatchName ts := by
  rw [scanFocus_skip pre (renderLayout ts ++ post)
    (renderLayout_post_head ts post hposthead) hpre]
  exact scanFocus_render_aux post hpost ts h

theorem firstMatchName_eq_firstFocused : ∀ (ts : List TabEntry),
    (∀ t ∈ ts, t.name ≠ []) → firstMatchName ts = firstFocusedName ts
  | [], _ => rfl
  | t :: ts', hnames => by
    simp only [firstMatchName, firstFocusedName]
    by_cases hf : t.focus = true
    · rw [if_pos ⟨hf, hnames t (List.mem_cons_self t ts')⟩, if_pos hf]
    · rw [if_neg (fun hc => hf hc.1), if_neg hf]
      exact firstMatchName_eq_firstFocused ts'
        (fun u hu => hnames u (List.mem_cons_of_mem t hu))

theorem firstMatchName_none : ∀ (ts : List TabEntry),
    (∀ t ∈ ts, t.focus = true → t.name = []) → firstMatchName ts = none
  | [], _ => rfl
  | t :: ts', h => by
    simp only [firstMatchName]
    rw [if_neg (fun hc => hc.2 (h t (List.mem_cons_self t ts') hc.1))]
    exact firstMatchName_none ts' (fun u hu => h u (List.mem_cons_of_mem t hu))

/-- C2: on a structured dump, the parser returns the declared name of the
first entry, in document order, whose name attribute is followed (before the
entry's opening brace, with arbitrary admissible attributes in between) by
`focus=true`; with no such entry anywhere it returns `none`. -/
theorem parseFocusedTabName_first (pre : List Char) (ts : List TabEntry)
    (post : List Char) (hpre : ¬ tabLit <:+: pre)
    (h : ∀ t ∈ ts, wfTab t) (hn : ∀ t ∈ ts, t.name ≠ [])
    (hpost : ¬ tabLit <:+: post)
    (hposthead : ∀ ch, post.head? = some ch → ch ∉ tabLit.tail) :
    parseFocusedTabName (String.mk (pre ++ (renderLayout ts ++ post))) =
      (firstFocusedName ts).map String.mk := by
  show (scanFocus (pre ++ (renderLayout ts ++ post))).map String.mk = _
  rw [scanFocus_render_full pre ts post hpre h hpost hposthead,
    firstMatchName_eq_firstFocused ts hn]

theorem parseFocusedTabName_first_witness :
    parseFocusedTabName (String.mk (("layout ".data ++ ['{', '\n']) ++
      (renderLayout
        [⟨"editor".data, [], false, "pane".data⟩,
         ⟨"server".data, ["hide_floating_panes=true".data], true, "pane".data⟩,
         ⟨"git".data, [], true, []⟩] ++ ['}']))) = some "server" := by
  have h := parseFocusedTabName_first ("layout ".data ++ ['{', '\n'])
    [⟨"editor".data, [], false, "pane".data⟩,
     ⟨"server".data, ["hide_floating_panes=true".data], true, "pane".data⟩,
     ⟨"git".data, [], true, []⟩] ['}']
    (by decide) (by decide) (by decide) (by decide) (by decide)
  rw [h]
  rfl

/-- When a successful snapshot parses to `none`, the preserved operation
performs no restoration call and returns the action's value. -/
theorem wfp_none_restore {α : Type} (env : Env) (options : ZellijOptions)
    (ta : List Ev) (v : α) (r0 : ZellijResult) (dumpFa : List String)
    (hfa : dumpFa = finalArgsOf env ["action", "dump-layout"] options)
    (h0 : exec dumpFa (options.timeout.getD DEFAULT_TIMEOUT_MS)
      (env.run dumpFa) = Except.ok r0)
    (hex : r0.exitCode = 0)
    (hparse : parseFocusedTabName r0.stdout = none) :
    withFocusPreservation ((ta, Except.ok v) : M α) true env options =
      ([Ev.spawn dumpFa, Ev.sleep POST_ACTION_DELAY_MS] ++ ta, Except.ok v) := by
  have hsnap := getFocusedTabName_ok env options r0 dumpFa hfa h0 hex
  unfold withFocusPreservation
  rw [hsnap, hparse]
  simp

/-- C10: a dump in which every entry carrying `focus=true` has an empty
declared name parses to `none` — the regex only recognizes non-empty names —
and consequently a preserved operation observing such a dump performs the
snapshot and the action but no restoration call. -/
theorem emptyNameFocusedTab_no_restore (pre : List Char) (ts : List TabEntry)
    (post : List Char) (hpre : ¬ tabLit <:+: pre)
    (h : ∀ t ∈ ts, wfTab t)
    (hf : ∀ t ∈ ts, t.focus = true → t.name = [])
    (hpost : ¬ tabLit <:+: post)
    (hposthead : ∀ ch, post.head? = some ch → ch ∉ tabLit.tail) :
    parseFocusedTabName (String.mk (pre ++ (renderLayout ts ++ post))) = none ∧
    (∀ {α : Type} (env : Env) (options : ZellijOptions) (ta : List Ev) (v : α)
      (r0 : ZellijResult) (dumpFa : List String),
      dumpFa = finalArgsOf env ["action", "dump-layout"] options →
      exec dumpFa (options.timeout.getD DEFAULT_TIMEOUT_MS) (env.run dumpFa) =
        Except.ok r0 →
      r0.exitCode = 0 →
      r0.stdout = String.mk (pre ++ (renderLayout ts ++ post)) →
      withFocusPreservation ((ta, Except.ok v) : M α) true env options =
        ([Ev.spawn dumpFa, Ev.sleep POST_ACTION_DELAY_MS] ++ ta,
          Except.ok v)) := by
  have hparse : parseFocusedTabName
      (String.mk (pre ++ (renderLayout ts ++ post))) = none := by
    show (scanFocus (pre ++ (renderLayout ts ++ post))).map String.mk = none
    rw [scanFocus_render_full pre ts post hpre h hpost hposthead,
      firstMatchName_none ts hf]
    rfl
  refine ⟨hparse, ?_⟩
  intro α env options ta v r0 dumpFa hfa h0 hex hst
  exact wfp_none_restore env options ta v r0 dumpFa hfa h0 hex
    (by rw [hst]; exact hparse)

/-- The dump text used to instantiate the empty-name scenario. -/
def envEmptyNameDump : Env :=
  ⟨fun a =>
    if a = ["--session", "zellij-mcp", "action", "dump-layout"]
    then ⟨none, String.mk (("layout ".data ++ ['{', '\n']) ++
      (renderLayout [⟨[], [], true, []⟩] ++ ['}'])), ""⟩
    else ⟨none, "", ""⟩, none⟩

theorem emptyNameFocusedTab_no_restore_witness :
    parseFocusedTabName (String.mk (("layout ".data ++ ['{', '\n']) ++
      (renderLayout [⟨[], [], true, []⟩] ++ ['}']))) = none ∧
    withFocusPreservation (([], Except.ok "v") : M String) true
        envEmptyNameDump {} =
      ([Ev.spawn ["--session", "zellij-mcp", "action", "dump-layout"],
        Ev.sleep POST_ACTION_DELAY_MS], Except.ok "v") := by
  have h := emptyNameFocusedTab_no_restore ("layout ".data ++ ['{', '\n'])
    [⟨[], [], true, []⟩] ['}'] (by decide) (by decide) (by decide) (by decide)
    (by decide)
  refine ⟨h.1, ?_⟩
  have h2 := h.2 (α := String) envEmptyNameDump {} [] "v"
    ⟨String.mk (("layout ".data ++ ['{', '\n']) ++
      (renderLayout [⟨[], [], true, []⟩] ++ ['}'])), "", 0⟩
    ["--session", "zellij-mcp", "action", "dump-layout"] rfl rfl rfl rfl
  simpa using h2
